import Mathlib

/-!
# Verification of the ebolt encrypted path-addressed storage layer

A shallow embedding of `github.com/opencoff/ebolt` (an encryption and
path-addressing layer over the bbolt transactional bucket store) and proofs
about it.

Modelling conventions:
* Go byte strings (both `string` and `[]byte`) are `List Nat`, one `Nat`
  per byte. `'/'` is byte 47, `'.'` is byte 46.
* The external bbolt store (out of scope for the repository, consumed as a
  capability) is modelled as a flat map: the set of existing bucket paths
  plus an association list of `(bucket path, key, value)` entries, with
  bbolt's documented error behaviour (`ErrKeyRequired`,
  `ErrIncompatibleValue`, `ErrBucketNameRequired`, size limits).
* The AES-GCM AEAD instances from `crypto/cipher` are external collaborators
  and are modelled as an abstract `AEAD` record; the standard AEAD
  properties (`Open` inverts `Seal`; sealing adds exactly `Overhead` bytes)
  are stated as `AEAD.Lawful` and assumed where the repository's code relies
  on them.  `sha3.New256` is likewise an abstract digest function.
* Randomness (`randfill` for value nonces) is externalized: operations that
  generate a fresh nonce take it as an explicit argument.
* The repository snapshot holds two versions of the cipher/transaction
  layer.  The current one (`bolt_tx.go` plus the keyed-digest `cipher.go`)
  is embedded as the `encryptorA`/`tx*` definitions; the older
  deterministic-AEAD variant (segment cipher `encSegment`, path splitting
  `splitLeaf`) is embedded with a `B` suffix where a claim refers to it.
-/

/-- Go byte strings: one `Nat` per byte. -/
abbrev Bytes := List Nat

/-! ## `cipher.go`: enc32 / dec32 -/

/-- `enc32`: `binary.BigEndian.PutUint32(b[:4], uint32(v))` — the 4-byte
big-endian encoding of `v` truncated to 32 bits. -/
def enc32 (v : Nat) : Bytes :=
  [v / 2 ^ 24 % 256, v / 2 ^ 16 % 256, v / 2 ^ 8 % 256, v % 256]

/-- `dec32`: reads a big-endian `uint32` from the first 4 bytes and returns
the remainder of the buffer together with the decoded number. -/
def dec32 (b : Bytes) : Bytes × Nat :=
  (b.drop 4,
   b.getD 0 0 * 2 ^ 24 + b.getD 1 0 * 2 ^ 16 + b.getD 2 0 * 2 ^ 8 + b.getD 3 0)

theorem enc32_length (v : Nat) : (enc32 v).length = 4 := rfl

/-- `dec32` inverts `enc32` on values below `2^32` (Go truncates to
`uint32`). -/
theorem dec32_enc32 (v : Nat) (rest : Bytes) (h : v < 2 ^ 32) :
    dec32 (enc32 v ++ rest) = (rest, v) := by
  have hd : dec32 (enc32 v ++ rest)
      = (rest, v / 2 ^ 24 % 256 * 2 ^ 24 + v / 2 ^ 16 % 256 * 2 ^ 16
          + v / 2 ^ 8 % 256 * 2 ^ 8 + v % 256) := rfl
  rw [hd]
  congr 1
  omega

/-! ## The external AEAD (AES-256-GCM from `crypto/cipher`) -/

/-- Abstract model of a `cipher.AEAD` instance.  `seal nonce pt` is
`Seal(dst, nonce, pt, nil)`; `opn nonce ct` is `Open(dst, nonce, ct, nil)`,
returning `none` on authentication failure. -/
structure AEAD where
  nonceSize : Nat
  overhead : Nat
  sealE : Bytes → Bytes → Bytes
  openE : Bytes → Bytes → Option Bytes

/-- The standard AEAD contract the repository's code relies on: opening a
sealed message under the same nonce recovers it, and sealing adds exactly
`Overhead()` bytes. -/
structure AEAD.Lawful (A : AEAD) : Prop where
  open_seal : ∀ n p, A.openE n (A.sealE n p) = some p
  sealE_length : ∀ n p, (A.sealE n p).length = p.length + A.overhead

/-! ## Current cipher (`cipher.go`, keyed-digest scheme): `encryptor` -/

/-- The current `encryptor`: a 32-byte MAC key `hkey` for obfuscating leaf
key names, and one AES-256-GCM AEAD `ae` for value envelopes.  The
`sha3_256` field is the external `sha3.New256` digest (applied to the
written stream), abstract here. -/
structure encryptorA where
  hkey : Bytes
  sha3_256 : Bytes → Bytes
  ae : AEAD

/-- `encKey`: the leaf-name obfuscation, `SHA3-256(hkey ‖ k)`. -/
def encKey (c : encryptorA) (k : Bytes) : Bytes :=
  c.sha3_256 (c.hkey ++ k)

/-- `encryptKV`: the value envelope.  A buffer of
`NonceSize + Overhead + len(k) + len(v) + 4` bytes is filled with the fresh
`nonce` followed by `Seal(nonce, enc32(len k) ‖ k ‖ v)` (sealed in place;
the seal output is exactly `Overhead` bytes longer than the plaintext). -/
def encryptKV (c : encryptorA) (nonce : Bytes) (k v : Bytes) : Bytes :=
  nonce ++ c.ae.sealE nonce (enc32 k.length ++ k ++ v)

/-- Errors of the cipher layer (`decryptKV` / `decSegment`). -/
inductive CryptoErr where
  | tooShort (n : Nat)
  | authFail
  | ptShort (n : Nat)
deriving DecidableEq, Repr

/-- `decryptKV`: rejects buffers shorter than
`NonceSize + Overhead + 4` with the "buf len %d too small" error, splits off
the nonce, opens the remainder (authentication failure is surfaced), decodes
the 4-byte key length and returns the `(key, value)` pair. -/
def decryptKV (c : encryptorA) (ct : Bytes) : Except CryptoErr (Bytes × Bytes) :=
  let nl := c.ae.nonceSize
  let ov := c.ae.overhead
  if ct.length < nl + ov + 4 then .error (.tooShort ct.length)
  else
    match c.ae.openE (ct.take nl) (ct.drop nl) with
    | none => .error .authFail
    | some pt =>
      let z := (dec32 pt).1
      let kl := (dec32 pt).2
      if z.length < kl then .error (.ptShort z.length)
      else .ok (z.take kl, z.drop kl)

/-- The central envelope inverse: under the AEAD contract, `decryptKV`
recovers exactly the `(key, value)` pair sealed by `encryptKV`. -/
theorem decryptKV_encryptKV (c : encryptorA) (law : c.ae.Lawful)
    (nonce k v : Bytes) (hn : nonce.length = c.ae.nonceSize)
    (hk : k.length < 2 ^ 32) :
    decryptKV c (encryptKV c nonce k v) = .ok (k, v) := by
  have hlen : (c.ae.sealE nonce (enc32 k.length ++ k ++ v)).length
      = 4 + k.length + v.length + c.ae.overhead := by
    rw [law.sealE_length, List.append_assoc, List.length_append, enc32_length,
      List.length_append]
    omega
  have htot : (encryptKV c nonce k v).length
      = c.ae.nonceSize + (4 + k.length + v.length + c.ae.overhead) := by
    rw [encryptKV, List.length_append, hn, hlen]
  have hnotshort :
      ¬ (encryptKV c nonce k v).length < c.ae.nonceSize + c.ae.overhead + 4 := by
    rw [htot]
    omega
  have htake : (encryptKV c nonce k v).take c.ae.nonceSize = nonce := by
    rw [encryptKV, ← hn, List.take_left]
  have hdrop : (encryptKV c nonce k v).drop c.ae.nonceSize
      = c.ae.sealE nonce (enc32 k.length ++ k ++ v) := by
    rw [encryptKV, ← hn, List.drop_left]
  simp only [decryptKV, hnotshort, if_false, htake, hdrop, law.open_seal]
  rw [List.append_assoc]
  rw [dec32_enc32 k.length (k ++ v) hk]
  simp

/-! ## Older cipher (`cipher.go`, deterministic-AEAD scheme) -/

/-- The older `encryptor`: independent AEADs for path segments (`key`) and
values (`val`), plus the fixed nonce derived from the key expansion used for
every segment encryption. -/
structure encryptorB where
  val : AEAD
  key : AEAD
  nonce : Bytes

/-- `encSegment`: seals one plaintext path segment under the segment AEAD
with the fixed derived nonce — hence deterministic per segment. -/
def encSegment (c : encryptorB) (s : Bytes) : Bytes :=
  c.key.sealE c.nonce s

/-- `decSegment`: rejects inputs shorter than the tag, then opens under the
fixed nonce. -/
def decSegment (c : encryptorB) (v : Bytes) : Except CryptoErr Bytes :=
  if v.length < c.key.overhead then .error (.tooShort v.length)
  else
    match c.key.openE c.nonce v with
    | none => .error .authFail
    | some pt => .ok pt

/-- `encryptKV` of the deterministic-AEAD variant (same envelope layout,
value AEAD `c.val`). -/
def encryptKVB (c : encryptorB) (nonce : Bytes) (k v : Bytes) : Bytes :=
  nonce ++ c.val.sealE nonce (enc32 k.length ++ k ++ v)

/-- `decryptKV` of the deterministic-AEAD variant. -/
def decryptKVB (c : encryptorB) (ct : Bytes) : Except CryptoErr (Bytes × Bytes) :=
  let nl := c.val.nonceSize
  let ov := c.val.overhead
  if ct.length < nl + ov + 4 then .error (.tooShort ct.length)
  else
    match c.val.openE (ct.take nl) (ct.drop nl) with
    | none => .error .authFail
    | some pt =>
      let z := (dec32 pt).1
      let kl := (dec32 pt).2
      if z.length < kl then .error (.ptShort z.length)
      else .ok (z.take kl, z.drop kl)

/-! ## Path splitting (`strings.Split`, `path/filepath` on unix) -/

/-- `strings.Split(s, "/")` — always returns at least one element
(`Split("", "/") = [""]`). `acc` accumulates the current segment reversed. -/
def splitSlashGo : Bytes → Bytes → List Bytes
  | [], acc => [acc.reverse]
  | c :: rest, acc =>
    if c = 47 then acc.reverse :: splitSlashGo rest []
    else splitSlashGo rest (c :: acc)

/-- `strings.Split(s, "/")`. -/
def splitSlash (s : Bytes) : List Bytes :=
  splitSlashGo s []

/-- One step of the `..` backtracking in `filepath.Clean`: starting from
write position `w` (the buffer length minus one, for Go's unconditional
first `out.w--`), keep retreating while above `dotdot` and the byte at the
current position is not a separator. -/
def popIdx (out : Bytes) (dotdot : Nat) : Nat → Nat
  | 0 => 0
  | w + 1 =>
    if dotdot < w + 1 ∧ ¬ out.getD (w + 1) 0 = 47 then popIdx out dotdot w
    else w + 1

/-- The `..` case of `filepath.Clean` when the output holds a removable
element: truncate the output back past the last element. -/
def popSegment (out : Bytes) (dotdot : Nat) : Bytes :=
  out.take (popIdx out dotdot (out.length - 1))

/-- The main loop of Go `filepath.Clean` (unix separators, no volume name).
`fuel` starts at the input length; every iteration consumes at least one
input byte, so the fuel never runs out. -/
def cleanGo : Nat → Bytes → Bool → Bytes → Nat → Bytes
  | 0, _, _, out, _ => out
  | _ + 1, [], _, out, _ => out
  | fuel + 1, c :: rest, rooted, out, dotdot =>
    if c = 47 then
      -- empty path element
      cleanGo fuel rest rooted out dotdot
    else if c = 46 ∧ (rest = [] ∨ rest.headD 0 = 47) then
      -- "." element
      cleanGo fuel rest rooted out dotdot
    else if c = 46 ∧ rest.headD 0 = 46 ∧ (rest.drop 1 = [] ∨ (rest.drop 1).headD 0 = 47) then
      -- ".." element: backtrack, or append ".." when nothing can be removed
      if dotdot < out.length then
        cleanGo fuel (rest.drop 1) rooted (popSegment out dotdot) dotdot
      else if !rooted then
        let out2 := (if 0 < out.length then out ++ [47] else out) ++ [46, 46]
        cleanGo fuel (rest.drop 1) rooted out2 out2.length
      else
        cleanGo fuel (rest.drop 1) rooted out dotdot
    else
      -- real path element: add separator if needed, then copy the element
      let out2 := if (rooted ∧ out.length ≠ 1) ∨ (¬ rooted ∧ out.length ≠ 0)
        then out ++ [47] else out
      cleanGo fuel (rest.dropWhile (fun b => ¬ b = 47)) rooted
        (out2 ++ c :: rest.takeWhile (fun b => ¬ b = 47)) dotdot

/-- Go `filepath.Clean` (unix): `Clean("") = "."`; a rooted path starts the
output with `/` and `dotdot = 1`; an empty result becomes `"."`. -/
def clean (p : Bytes) : Bytes :=
  match p with
  | [] => [46]
  | c :: rest =>
    let r := if c = 47 then cleanGo rest.length rest true [47] 1
             else cleanGo (rest.length + 1) (c :: rest) false [] 0
    if r = [] then [46] else r

/-- Go `filepath.Dir` (unix, empty volume name): everything up to and
including the final separator, cleaned. -/
def goDir (p : Bytes) : Bytes :=
  clean ((p.reverse.dropWhile (fun b => ¬ b = 47)).reverse)

/-- Go `filepath.Base` (unix): `Base("") = "."`; strip trailing separators;
all-separators gives `"/"`; otherwise the suffix after the final separator. -/
def goBase (p : Bytes) : Bytes :=
  match p with
  | [] => [46]
  | _ =>
    let s1 := (p.reverse.dropWhile (fun b => b = 47)).reverse
    if s1 = [] then [47]
    else (s1.reverse.takeWhile (fun b => ¬ b = 47)).reverse

/-- The reserved synthetic root bucket label `".root"`. -/
def rootLabel : Bytes := [46, 114, 111, 111, 116]

/-- `split` from `bolt_tx.go`: `filepath.Dir`/`filepath.Base`, with a `"."`
directory replaced by the synthetic `".root"` bucket. -/
def split (p : Bytes) : Bytes × Bytes :=
  let dn := goDir p
  let bn := goBase p
  (if dn = [46] then rootLabel else dn, bn)

/-- `splitLeaf` from the older `bolt_tx.go`: split on `/`; zero segments
resolve to the root label alone, a single segment is placed under the root
label. -/
def splitLeaf (p : Bytes) : List Bytes :=
  match splitSlash p with
  | [] => [rootLabel]
  | [x] => [rootLabel, x]
  | v => v

/-! ## The external transactional bucket store (bbolt), flat model -/

/-- The state reachable through one transaction: the set of existing bucket
paths (root-to-leaf sequences of bucket names) and an association list of
`(bucket path, key, value)` entries.  bbolt iterates keys in byte order; the
claims below are order-insensitive, so insertion order stands in for it. -/
structure Store where
  buckets : List (List Bytes)
  entries : List (List Bytes × Bytes × Bytes)
deriving DecidableEq, Repr

/-- The empty database. -/
def store0 : Store := ⟨[], []⟩

/-- bbolt errors surfaced by the operations this layer uses. -/
inductive BoltErr where
  | keyRequired
  | incompatibleValue
  | bucketNameRequired
  | keyTooLarge
  | valueTooLarge
deriving DecidableEq, Repr

/-- Lookup of a value among entries (`Bucket.Get`); `none` also when the
name denotes a nested bucket, as in bbolt. -/
def findVal : List (List Bytes × Bytes × Bytes) → List Bytes → Bytes → Option Bytes
  | [], _, _ => none
  | e :: t, bp, k => if e.1 = bp ∧ e.2.1 = k then some e.2.2 else findVal t bp k

def getEntry (st : Store) (bp : List Bytes) (k : Bytes) : Option Bytes :=
  findVal st.entries bp k

def hasBucket (st : Store) (bp : List Bytes) : Bool :=
  st.buckets.contains bp

/-- Replace the value at `(bp, k)` or append a fresh entry (`Bucket.Put`'s
effect). -/
def upsert : List (List Bytes × Bytes × Bytes) → List Bytes → Bytes → Bytes →
    List (List Bytes × Bytes × Bytes)
  | [], bp, k, v => [(bp, k, v)]
  | e :: t, bp, k, v =>
    if e.1 = bp ∧ e.2.1 = k then (bp, k, v) :: t else e :: upsert t bp k v

/-- Remove the entry at `(bp, k)` (`Bucket.Delete`'s effect). -/
def removeEntry : List (List Bytes × Bytes × Bytes) → List Bytes → Bytes →
    List (List Bytes × Bytes × Bytes)
  | [], _, _ => []
  | e :: t, bp, k =>
    if e.1 = bp ∧ e.2.1 = k then removeEntry t bp k else e :: removeEntry t bp k

/-- `Bucket.Put` (bbolt): rejects empty keys, oversized keys/values, and a
key that collides with an existing nested bucket; otherwise stores the
value. -/
def putE (st : Store) (bp : List Bytes) (k v : Bytes) : Except BoltErr Store :=
  if k = [] then .error .keyRequired
  else if 32768 < k.length then .error .keyTooLarge
  else if 2147483646 < v.length then .error .valueTooLarge
  else if hasBucket st (bp ++ [k]) then .error .incompatibleValue
  else .ok ⟨st.buckets, upsert st.entries bp k v⟩

/-- `Bucket.Delete` (bbolt): rejects a name that denotes a nested bucket;
deleting an absent key succeeds. -/
def delE (st : Store) (bp : List Bytes) (k : Bytes) : Except BoltErr Store :=
  if hasBucket st (bp ++ [k]) then .error .incompatibleValue
  else .ok ⟨st.buckets, removeEntry st.entries bp k⟩

/-- `CreateBucketIfNotExists` one level below `parent` (bbolt): empty names
are rejected, an existing bucket is returned as-is, a name that collides
with an existing key fails with `ErrIncompatibleValue`. -/
def createOne (st : Store) (parent : List Bytes) (nm : Bytes) : Except BoltErr Store :=
  if nm = [] then .error .bucketNameRequired
  else if hasBucket st (parent ++ [nm]) then .ok st
  else if (getEntry st parent nm).isSome then .error .incompatibleValue
  else .ok ⟨st.buckets ++ [parent ++ [nm]], st.entries⟩

/-- Walk a chain of bucket names from `parent`, creating every level
(`mkbucket`'s loop).  On failure the partially created levels remain part of
the transaction, as they do in bbolt, so the state reached so far is
returned alongside the error. -/
def createChainP (st : Store) (parent : List Bytes) :
    List Bytes → Store × Option BoltErr
  | [] => (st, none)
  | nm :: rest =>
    match createOne st parent nm with
    | .error e => (st, some e)
    | .ok st' => createChainP st' (parent ++ [nm]) rest

/-- Descend-only walk (`xact.bucket`'s loop): `true` iff every bucket of the
chain exists.  Depends only on the bucket set. -/
def chainOkL (bl : List (List Bytes)) : List Bytes → List Bytes → Bool
  | _, [] => true
  | parent, nm :: rest =>
    bl.contains (parent ++ [nm]) && chainOkL bl (parent ++ [nm]) rest

/-- Names of the direct child buckets of `bp` (`ForEachBucket`). -/
def childNames (st : Store) (bp : List Bytes) : List Bytes :=
  (st.buckets.filter (fun b => b.dropLast = bp ∧ b ≠ [])).map (fun b => b.getLastD [])

/-- `Bucket.ForEach`: every key of the bucket — entries with their values
and nested bucket names with a nil (`none`) value, as bbolt hands them to
the callback. -/
def forEachItems (st : Store) (bp : List Bytes) : List (Bytes × Option Bytes) :=
  (st.entries.filter (fun e => e.1 = bp)).map (fun e => (e.2.1, some e.2.2))
    ++ (childNames st bp).map (fun n => (n, none))

/-! ## `bolt_tx.go`: the transaction-scoped operation set (current version) -/

/-- The error type of the storage layer: `StorageError{Op, Key, cause}`. -/
inductive Cause where
  | bolt (e : BoltErr)
  | crypto (e : CryptoErr)
  | notFound (p : Bytes)
deriving DecidableEq, Repr

structure StorageError where
  op : String
  key : Bytes
  err : Cause
deriving DecidableEq, Repr

/-- `mkbucket`: split the bucket path on `/` and create every level.
(`strings.Split` never yields an empty list, so the source's
`len(v) == 0` branch is unreachable.)  Errors are wrapped as
`StorageError{"new-bucket", …}` in the source and re-wrapped by the callers
embedded below; the flat `Cause` keeps only the underlying bbolt error. -/
def mkbucketP (st : Store) (dn : Bytes) : Store × Option BoltErr :=
  createChainP st [] (splitSlash dn)

/-- `xact.Set`: split the path, obfuscate the leaf with `encKey`, create the
intermediate buckets from the plaintext dir segments, seal the
`(leaf, value)` envelope with a fresh `nonce` and `Put` it. -/
def txSet (c : encryptorA) (st : Store) (p v nonce : Bytes) :
    Store × Option StorageError :=
  let dn := (split p).1
  let nm := (split p).2
  let k := encKey c nm
  match mkbucketP st dn with
  | (st1, some e) => (st1, some ⟨"set", p, .bolt e⟩)
  | (st1, none) =>
    match putE st1 (splitSlash dn) k (encryptKV c nonce nm v) with
    | .error e => (st1, some ⟨"set", p, .bolt e⟩)
    | .ok st2 => (st2, none)

/-- `xact.Get`: descend-only; a missing intermediate bucket is a
bucket-not-found `StorageError`; an existing bucket without the leaf key
yields `(nil, nil)` — no value, no error. -/
def txGet (c : encryptorA) (st : Store) (p : Bytes) :
    Except StorageError (Option Bytes) :=
  let dn := (split p).1
  let nm := (split p).2
  let k := encKey c nm
  if chainOkL st.buckets [] (splitSlash dn) then
    match getEntry st (splitSlash dn) k with
    | none => .ok none
    | some ct =>
      match decryptKV c ct with
      | .error e => .error ⟨"get", dn, .crypto e⟩
      | .ok r => .ok (some r.2)
  else .error ⟨"get", dn, .notFound p⟩

/-- `xact.Del`: descend-only, then `Delete` the obfuscated leaf key. -/
def txDel (c : encryptorA) (st : Store) (p : Bytes) :
    Store × Option StorageError :=
  let dn := (split p).1
  let nm := (split p).2
  let k := encKey c nm
  if chainOkL st.buckets [] (splitSlash dn) then
    match delE st (splitSlash dn) k with
    | .error e => (st, some ⟨"del", p, .bolt e⟩)
    | .ok st' => (st', none)
  else (st, some ⟨"del", dn, .notFound p⟩)

/-- The loop body of `xact.SetMany`: apply each pair in order inside the
same transaction, stopping at (and returning) the first error together with
the transaction state reached so far. -/
def setManyGo (c : encryptorA) :
    Store → List (Bytes × Bytes) → List Bytes → Store × Option StorageError
  | st, [], _ => (st, none)
  | st, (key, val) :: rest, nonces =>
    let dn := (split key).1
    let nm := (split key).2
    match mkbucketP st dn with
    | (st1, some e) => (st1, some ⟨"set-many", key, .bolt e⟩)
    | (st1, none) =>
      match putE st1 (splitSlash dn) (encKey c nm) (encryptKV c (nonces.headD []) nm val) with
      | .error e => (st1, some ⟨"set-many", key, .bolt e⟩)
      | .ok st2 => setManyGo c st2 rest (nonces.drop 1)

/-- `xact.SetMany`: empty batch is a no-op, a single pair delegates to
`Set`, otherwise the loop applies every pair in the same transaction. -/
def txSetMany (c : encryptorA) (st : Store) (kv : List (Bytes × Bytes))
    (nonces : List Bytes) : Store × Option StorageError :=
  match kv with
  | [] => (st, none)
  | [x] => txSet c st x.1 x.2 (nonces.headD [])
  | _ => setManyGo c st kv nonces

/-- The `ForEach` body of `xact.All`: decrypt each visited value (a nested
bucket is visited with a nil value, which `decryptKV` rejects as too short)
and record `(embedded name, value)` in visiting order; later duplicates
overwrite earlier ones in the Go map, but no claim below depends on it. -/
def allGo (c : encryptorA) (p : Bytes) :
    List (Bytes × Option Bytes) → List (Bytes × Bytes) →
    Except StorageError (List (Bytes × Bytes))
  | [], acc => .ok acc
  | (_, vo) :: rest, acc =>
    match decryptKV c (vo.getD []) with
    | .error e => .error ⟨"all", p, .crypto e⟩
    | .ok r => allGo c p rest (acc ++ [r])

/-- `xact.All`: resolve `p` itself as the bucket (no `.root` rewriting, no
path cleaning — `strings.Split` directly), then decrypt every entry. -/
def txAll (c : encryptorA) (st : Store) (p : Bytes) :
    Except StorageError (List (Bytes × Bytes)) :=
  if chainOkL st.buckets [] (splitSlash p) then
    allGo c p (forEachItems st (splitSlash p)) []
  else .error ⟨"all", p, .notFound []⟩

/-- The `ForEach` body of `xact.AllKeys`: collect the embedded names only. -/
def allKeysGo (c : encryptorA) (p : Bytes) :
    List (Bytes × Option Bytes) → List Bytes → Except StorageError (List Bytes)
  | [], acc => .ok acc
  | (_, vo) :: rest, acc =>
    match decryptKV c (vo.getD []) with
    | .error e => .error ⟨"all", p, .crypto e⟩
    | .ok r => allKeysGo c p rest (acc ++ [r.1])

/-- `xact.AllKeys`. -/
def txAllKeys (c : encryptorA) (st : Store) (p : Bytes) :
    Except StorageError (List Bytes) :=
  if chainOkL st.buckets [] (splitSlash p) then
    allKeysGo c p (forEachItems st (splitSlash p)) []
  else .error ⟨"all", p, .notFound []⟩

/-- `xact.Dir`: the raw names of the direct child buckets (plaintext in
this version; note the source tags the error with op `"all"`). -/
def txDir (c : encryptorA) (st : Store) (p : Bytes) :
    Except StorageError (List Bytes) :=
  if chainOkL st.buckets [] (splitSlash p) then
    .ok (childNames st (splitSlash p))
  else .error ⟨"all", p, .notFound []⟩

/-! ## `bolt.go`: the database façade (implicit one-shot transactions) -/

/-- `bdb.Set`: begin a writable transaction, operate, and `defer
tx.Commit()` — the commit runs on every exit path, also when `Set` failed,
and its own error is discarded.  The committed database is therefore the
transaction state reached, whatever the returned error. -/
def dbSet (c : encryptorA) (db : Store) (p v nonce : Bytes) :
    Store × Option StorageError :=
  txSet c db p v nonce

/-- `bdb.Get`: one-shot read-only transaction on a snapshot; the deferred
`Rollback` discards it, leaving the database untouched. -/
def dbGet (c : encryptorA) (db : Store) (p : Bytes) :
    Except StorageError (Option Bytes) × Store :=
  (txGet c db p, db)

/-- `bdb.Del` (deferred commit, like `bdb.Set`). -/
def dbDel (c : encryptorA) (db : Store) (p : Bytes) :
    Store × Option StorageError :=
  txDel c db p

/-- `bdb.SetMany`: empty batch → no-op; single pair → `bdb.Set`; otherwise
one writable transaction around `xact.SetMany` with `defer tx.Commit()`,
which commits whatever the loop managed to apply even when it returns an
error. -/
def dbSetMany (c : encryptorA) (db : Store) (kv : List (Bytes × Bytes))
    (nonces : List Bytes) : Store × Option StorageError :=
  match kv with
  | [] => (db, none)
  | [x] => dbSet c db x.1 x.2 (nonces.headD [])
  | _ => txSetMany c db kv nonces

/-- `bdb.All` (read-only snapshot, rolled back). -/
def dbAll (c : encryptorA) (db : Store) (p : Bytes) :
    Except StorageError (List (Bytes × Bytes)) × Store :=
  (txAll c db p, db)

/-- `bdb.AllKeys` (read-only snapshot, rolled back). -/
def dbAllKeys (c : encryptorA) (db : Store) (p : Bytes) :
    Except StorageError (List Bytes) × Store :=
  (txAllKeys c db p, db)

/-- `bdb.Dir` (read-only snapshot, rolled back). -/
def dbDir (c : encryptorA) (db : Store) (p : Bytes) :
    Except StorageError (List Bytes) × Store :=
  (txDir c db p, db)

/-! ## Concrete instances for evaluation

A lawful, executable stand-in for AES-256-GCM (nonce 12, tag 16) and for
SHA3-256 (32-byte output), used to evaluate the embedding on concrete
inputs. -/

def mockAEAD : AEAD where
  nonceSize := 12
  overhead := 16
  sealE := fun _ p => p ++ List.replicate 16 0
  openE := fun _ ct =>
    if 16 ≤ ct.length ∧ ct.drop (ct.length - 16) = List.replicate 16 0
    then some (ct.take (ct.length - 16)) else none

theorem mockAEAD_lawful : mockAEAD.Lawful := by
  constructor
  · intro n p
    have hlen : (p ++ List.replicate 16 (0 : Nat)).length = p.length + 16 := by
      simp
    simp only [mockAEAD]
    rw [hlen, Nat.add_sub_cancel, List.drop_left, List.take_left]
    simp
  · intro n p
    simp only [mockAEAD]
    simp

/-- A stand-in digest with SHA3-256's 32-byte output length. -/
def mockEncA : encryptorA where
  hkey := []
  sha3_256 := fun x => List.replicate 32 (x.length % 256)
  ae := mockAEAD

def mockEncB : encryptorB where
  val := mockAEAD
  key := mockAEAD
  nonce := List.replicate 12 0

theorem mockEncA_encKey_length (s : Bytes) : (encKey mockEncA s).length = 32 := by
  simp [encKey, mockEncA]

/-! ## Store lemmas -/

theorem createOne_entries {st : Store} {parent : List Bytes} {nm : Bytes}
    {st' : Store} (h : createOne st parent nm = .ok st') :
    st'.entries = st.entries := by
  unfold createOne at h
  split at h
  · exact absurd h (by simp)
  · split at h
    · cases h
      rfl
    · split at h
      · exact absurd h (by simp)
      · cases h
        rfl

theorem createOne_buckets_subset {st : Store} {parent : List Bytes} {nm : Bytes}
    {st' : Store} (h : createOne st parent nm = .ok st') :
    ∀ bp ∈ st.buckets, bp ∈ st'.buckets := by
  unfold createOne at h
  split at h
  · exact absurd h (by simp)
  · split at h
    · cases h
      exact fun bp hbp => hbp
    · split at h
      · exact absurd h (by simp)
      · cases h
        exact fun bp hbp => List.mem_append_left _ hbp

theorem createOne_mem_self {st : Store} {parent : List Bytes} {nm : Bytes}
    {st' : Store} (h : createOne st parent nm = .ok st') :
    (parent ++ [nm]) ∈ st'.buckets := by
  unfold createOne at h
  split at h
  · exact absurd h (by simp)
  · rename_i hmem
    split at h
    · cases h
      rename_i hb
      exact List.mem_of_elem_eq_true (by simpa [hasBucket] using hb)
    · split at h
      · exact absurd h (by simp)
      · cases h
        simp

theorem createOne_nonempty {st : Store} {parent : List Bytes} {nm : Bytes}
    {st' : Store} (h : createOne st parent nm = .ok st') : nm ≠ [] := by
  unfold createOne at h
  split at h
  · exact absurd h (by simp)
  · assumption

theorem createChainP_entries (names : List Bytes) :
    ∀ st parent, (createChainP st parent names).1.entries = st.entries := by
  induction names with
  | nil => intro st parent; rfl
  | cons nm rest ih =>
    intro st parent
    show (match createOne st parent nm with
      | .error e => (st, some e)
      | .ok st' => createChainP st' (parent ++ [nm]) rest).1.entries = _
    cases hco : createOne st parent nm with
    | error e => rfl
    | ok st' => simpa [ih st' (parent ++ [nm])] using createOne_entries hco

theorem createChainP_buckets_subset (names : List Bytes) :
    ∀ st parent bp, bp ∈ st.buckets →
      bp ∈ (createChainP st parent names).1.buckets := by
  induction names with
  | nil => intro st parent bp hbp; exact hbp
  | cons nm rest ih =>
    intro st parent bp hbp
    show bp ∈ (match createOne st parent nm with
      | .error e => (st, some e)
      | .ok st' => createChainP st' (parent ++ [nm]) rest).1.buckets
    cases hco : createOne st parent nm with
    | error e => exact hbp
    | ok st' =>
      exact ih st' (parent ++ [nm]) bp (createOne_buckets_subset hco bp hbp)

theorem createChainP_chainOk (names : List Bytes) :
    ∀ st parent st', createChainP st parent names = (st', none) →
      chainOkL st'.buckets parent names = true := by
  induction names with
  | nil => intro st parent st' h; rfl
  | cons nm rest ih =>
    intro st parent st' h
    show (st'.buckets.contains (parent ++ [nm])
      && chainOkL st'.buckets (parent ++ [nm]) rest) = true
    have h' : (match createOne st parent nm with
      | .error e => (st, some e)
      | .ok st1 => createChainP st1 (parent ++ [nm]) rest) = (st', none) := h
    cases hco : createOne st parent nm with
    | error e =>
      rw [hco] at h'
      exact absurd h' (by simp)
    | ok st1 =>
      rw [hco] at h'
      have hrec : createChainP st1 (parent ++ [nm]) rest = (st', none) := h'
      have hmem : (parent ++ [nm]) ∈ st'.buckets := by
        have h1 := createOne_mem_self hco
        have h2 := createChainP_buckets_subset rest st1 (parent ++ [nm]) _ h1
        rw [hrec] at h2
        exact h2
      have hcont : st'.buckets.contains (parent ++ [nm]) = true :=
        List.elem_eq_true_of_mem hmem
      rw [hcont, ih st1 (parent ++ [nm]) st' hrec]
      rfl

theorem createChainP_nonempty (names : List Bytes) :
    ∀ st parent st', createChainP st parent names = (st', none) →
      ∀ nm ∈ names, nm ≠ [] := by
  induction names with
  | nil => intro st parent st' h nm hnm; cases hnm
  | cons nm0 rest ih =>
    intro st parent st' h nm hnm
    have h' : (match createOne st parent nm0 with
      | .error e => (st, some e)
      | .ok st1 => createChainP st1 (parent ++ [nm0]) rest) = (st', none) := h
    cases hco : createOne st parent nm0 with
    | error e =>
      rw [hco] at h'
      exact absurd h' (by simp)
    | ok st1 =>
      rw [hco] at h'
      have hrec : createChainP st1 (parent ++ [nm0]) rest = (st', none) := h'
      rcases List.mem_cons.mp hnm with heq | hmem
      · subst heq
        exact createOne_nonempty hco
      · exact ih st1 (parent ++ [nm0]) st' hrec nm hmem

/-- A chain that fully exists is re-walked without change:
`CreateBucketIfNotExists` on an existing bucket is a no-op. -/
theorem chainOk_createChainP (names : List Bytes) :
    ∀ st parent, chainOkL st.buckets parent names = true →
      (∀ nm ∈ names, nm ≠ []) →
      createChainP st parent names = (st, none) := by
  induction names with
  | nil => intro st parent _ _; rfl
  | cons nm rest ih =>
    intro st parent hok hne
    have hok' : (st.buckets.contains (parent ++ [nm])
        && chainOkL st.buckets (parent ++ [nm]) rest) = true := hok
    rw [Bool.and_eq_true] at hok'
    obtain ⟨hc, hrest⟩ := hok'
    have hco : createOne st parent nm = .ok st := by
      unfold createOne
      rw [if_neg (hne nm (List.mem_cons_self nm rest)), if_pos]
      show hasBucket st (parent ++ [nm]) = true
      exact hc
    show (match createOne st parent nm with
      | .error e => (st, some e)
      | .ok st1 => createChainP st1 (parent ++ [nm]) rest) = (st, none)
    rw [hco]
    exact ih st (parent ++ [nm]) hrest (fun x hx => hne x (List.mem_cons_of_mem nm hx))

theorem upsert_cons (e : List Bytes × Bytes × Bytes)
    (t : List (List Bytes × Bytes × Bytes)) (bp : List Bytes) (k v : Bytes) :
    upsert (e :: t) bp k v
      = if e.1 = bp ∧ e.2.1 = k then (bp, k, v) :: t else e :: upsert t bp k v := rfl

theorem findVal_cons (e : List Bytes × Bytes × Bytes)
    (t : List (List Bytes × Bytes × Bytes)) (bp : List Bytes) (k : Bytes) :
    findVal (e :: t) bp k
      = if e.1 = bp ∧ e.2.1 = k then some e.2.2 else findVal t bp k := rfl

theorem removeEntry_cons (e : List Bytes × Bytes × Bytes)
    (t : List (List Bytes × Bytes × Bytes)) (bp : List Bytes) (k : Bytes) :
    removeEntry (e :: t) bp k
      = if e.1 = bp ∧ e.2.1 = k then removeEntry t bp k
        else e :: removeEntry t bp k := rfl

theorem putE_ok_dest {st : Store} {bp : List Bytes} {k v : Bytes} {st' : Store}
    (h : putE st bp k v = .ok st') :
    st' = ⟨st.buckets, upsert st.entries bp k v⟩ := by
  unfold putE at h
  split at h
  · exact absurd h (by simp)
  · split at h
    · exact absurd h (by simp)
    · split at h
      · exact absurd h (by simp)
      · split at h
        · exact absurd h (by simp)
        · cases h
          rfl

theorem findVal_upsert_self (es : List (List Bytes × Bytes × Bytes))
    (bp : List Bytes) (k v : Bytes) :
    findVal (upsert es bp k v) bp k = some v := by
  induction es with
  | nil => simp [upsert, findVal_cons]
  | cons e t ih =>
    rw [upsert_cons]
    by_cases hm : e.1 = bp ∧ e.2.1 = k
    · rw [if_pos hm, findVal_cons]
      simp
    · rw [if_neg hm, findVal_cons, if_neg hm, ih]

theorem upsert_length_of_mem (es : List (List Bytes × Bytes × Bytes))
    (bp : List Bytes) (k v : Bytes) (w : Bytes) (h : findVal es bp k = some w) :
    (upsert es bp k v).length = es.length := by
  induction es with
  | nil => cases h
  | cons e t ih =>
    rw [upsert_cons]
    by_cases hm : e.1 = bp ∧ e.2.1 = k
    · rw [if_pos hm]
      rfl
    · rw [findVal_cons, if_neg hm] at h
      rw [if_neg hm, List.length_cons, List.length_cons, ih h]

theorem findVal_removeEntry_self (es : List (List Bytes × Bytes × Bytes))
    (bp : List Bytes) (k : Bytes) :
    findVal (removeEntry es bp k) bp k = none := by
  induction es with
  | nil => rfl
  | cons e t ih =>
    rw [removeEntry_cons]
    by_cases hm : e.1 = bp ∧ e.2.1 = k
    · rw [if_pos hm]
      exact ih
    · rw [if_neg hm, findVal_cons, if_neg hm]
      exact ih

theorem mem_removeEntry {es : List (List Bytes × Bytes × Bytes)}
    {bp : List Bytes} {k : Bytes} {e : List Bytes × Bytes × Bytes}
    (h : e ∈ removeEntry es bp k) : e ∈ es := by
  induction es with
  | nil => cases h
  | cons e0 t ih =>
    rw [removeEntry_cons] at h
    by_cases hm : e0.1 = bp ∧ e0.2.1 = k
    · rw [if_pos hm] at h
      exact List.mem_cons_of_mem e0 (ih h)
    · rw [if_neg hm] at h
      rcases List.mem_cons.mp h with heq | hmem
      · exact heq ▸ List.mem_cons_self e0 t
      · exact List.mem_cons_of_mem e0 (ih hmem)

theorem mem_upsert {es : List (List Bytes × Bytes × Bytes)}
    {bp : List Bytes} {k v : Bytes} {e : List Bytes × Bytes × Bytes}
    (h : e ∈ upsert es bp k v) : e ∈ es ∨ e = (bp, k, v) := by
  induction es with
  | nil =>
    simp only [upsert] at h
    exact .inr (List.mem_singleton.mp h)
  | cons e0 t ih =>
    rw [upsert_cons] at h
    by_cases hm : e0.1 = bp ∧ e0.2.1 = k
    · rw [if_pos hm] at h
      rcases List.mem_cons.mp h with heq | hmem
      · exact .inr heq
      · exact .inl (List.mem_cons_of_mem e0 hmem)
    · rw [if_neg hm] at h
      rcases List.mem_cons.mp h with heq | hmem
      · exact .inl (heq ▸ List.mem_cons_self e0 t)
      · rcases ih hmem with hl | hr
        · exact .inl (List.mem_cons_of_mem e0 hl)
        · exact .inr hr

/-! ## Path lemmas -/

theorem splitSlashGo_no_sep (s : Bytes) :
    ∀ acc, (∀ c ∈ s, c ≠ 47) → splitSlashGo s acc = [acc.reverse ++ s] := by
  induction s with
  | nil => intro acc _; simp [splitSlashGo]
  | cons c rest ih =>
    intro acc h
    have hc : ¬ c = 47 := h c (List.mem_cons_self c rest)
    show (if c = 47 then acc.reverse :: splitSlashGo rest []
      else splitSlashGo rest (c :: acc)) = [acc.reverse ++ c :: rest]
    rw [if_neg hc, ih (c :: acc) (fun x hx => h x (List.mem_cons_of_mem c hx))]
    simp

/-- `strings.Split` of a separator-free string is the singleton list. -/
theorem splitSlash_no_sep (s : Bytes) (h : ∀ c ∈ s, c ≠ 47) :
    splitSlash s = [s] := by
  rw [splitSlash, splitSlashGo_no_sep s [] h]
  rfl

/-- `filepath.Dir` of a separator-free string is `"."`. -/
theorem goDir_no_sep (s : Bytes) (h : ∀ c ∈ s, c ≠ 47) : goDir s = [46] := by
  have hdrop : s.reverse.dropWhile (fun b => ¬ b = 47) = [] := by
    rw [List.dropWhile_eq_nil_iff]
    intro x hx
    simp [h x (List.mem_reverse.mp hx)]
  rw [goDir, hdrop]
  rfl

/-- `filepath.Base` of a non-empty separator-free string is itself. -/
theorem goBase_no_sep (s : Bytes) (hne : s ≠ []) (h : ∀ c ∈ s, c ≠ 47) :
    goBase s = s := by
  have hs1 : s.reverse.dropWhile (fun b => b = 47) = s.reverse := by
    cases hrs : s.reverse with
    | nil => rfl
    | cons c t =>
      rw [List.dropWhile_cons_of_neg]
      simp only [decide_eq_true_eq]
      exact h c (List.mem_reverse.mp (hrs ▸ List.mem_cons_self c t))
  have htk : s.reverse.takeWhile (fun b => ¬ b = 47) = s.reverse := by
    rw [List.takeWhile_eq_self_iff]
    intro x hx
    simp [h x (List.mem_reverse.mp hx)]
  cases hcs : s with
  | nil => exact absurd hcs hne
  | cons c0 t0 =>
    show (let s1 := ((c0 :: t0).reverse.dropWhile (fun b => b = 47)).reverse
      if s1 = [] then [47]
      else (s1.reverse.takeWhile (fun b => ¬ b = 47)).reverse) = c0 :: t0
    rw [← hcs, hs1, List.reverse_reverse]
    rw [if_neg hne]
    rw [htk, List.reverse_reverse]

/-! ## Transaction-layer lemmas -/

theorem txSet_def (c : encryptorA) (st : Store) (p v nonce : Bytes) :
    txSet c st p v nonce
      = match mkbucketP st (split p).1 with
        | (st1, some e) => (st1, some ⟨"set", p, .bolt e⟩)
        | (st1, none) =>
          match putE st1 (splitSlash (split p).1) (encKey c (split p).2)
            (encryptKV c nonce (split p).2 v) with
          | .error e => (st1, some ⟨"set", p, .bolt e⟩)
          | .ok st2 => (st2, none) := rfl

theorem txGet_def (c : encryptorA) (st : Store) (p : Bytes) :
    txGet c st p
      = if chainOkL st.buckets [] (splitSlash (split p).1) then
          match getEntry st (splitSlash (split p).1) (encKey c (split p).2) with
          | none => .ok none
          | some ct =>
            match decryptKV c ct with
            | .error e => .error ⟨"get", (split p).1, .crypto e⟩
            | .ok r => .ok (some r.2)
        else .error ⟨"get", (split p).1, .notFound p⟩ := rfl

theorem txDel_def (c : encryptorA) (st : Store) (p : Bytes) :
    txDel c st p
      = if chainOkL st.buckets [] (splitSlash (split p).1) then
          match delE st (splitSlash (split p).1) (encKey c (split p).2) with
          | .error e => (st, some ⟨"del", p, .bolt e⟩)
          | .ok st' => (st', none)
        else (st, some ⟨"del", (split p).1, .notFound p⟩) := rfl

theorem txSet_ok {c : encryptorA} {st : Store} {p v nonce : Bytes} {st' : Store}
    (h : txSet c st p v nonce = (st', none)) :
    ∃ st1, mkbucketP st (split p).1 = (st1, none) ∧
      putE st1 (splitSlash (split p).1) (encKey c (split p).2)
        (encryptKV c nonce (split p).2 v) = .ok st' := by
  rw [txSet_def] at h
  cases hmk : mkbucketP st (split p).1 with
  | mk st1 e? =>
    rw [hmk] at h
    cases e? with
    | some e => exact absurd h (by simp)
    | none =>
      have h2 : (match putE st1 (splitSlash (split p).1) (encKey c (split p).2)
          (encryptKV c nonce (split p).2 v) with
        | .error e => (st1, some (⟨"set", p, .bolt e⟩ : StorageError))
        | .ok st2 => (st2, none)) = (st', none) := h
      cases hput : putE st1 (splitSlash (split p).1) (encKey c (split p).2)
          (encryptKV c nonce (split p).2 v) with
      | error e =>
        rw [hput] at h2
        exact absurd h2 (by simp)
      | ok st2 =>
        rw [hput] at h2
        have h3 : (⟨st2, none⟩ : Store × Option StorageError) = (st', none) := h2
        have h4 : st2 = st' := congrArg Prod.fst h3
        exact ⟨st1, rfl, h4 ▸ hput⟩

theorem delE_ok_dest {st : Store} {bp : List Bytes} {k : Bytes} {st' : Store}
    (h : delE st bp k = .ok st') :
    st' = ⟨st.buckets, removeEntry st.entries bp k⟩ := by
  unfold delE at h
  split at h
  · exact absurd h (by simp)
  · cases h
    rfl

theorem txDel_ok {c : encryptorA} {st : Store} {p : Bytes} {st' : Store}
    (h : txDel c st p = (st', none)) :
    chainOkL st.buckets [] (splitSlash (split p).1) = true ∧
      delE st (splitSlash (split p).1) (encKey c (split p).2) = .ok st' := by
  rw [txDel_def] at h
  by_cases hc : chainOkL st.buckets [] (splitSlash (split p).1) = true
  · rw [if_pos hc] at h
    cases hdel : delE st (splitSlash (split p).1) (encKey c (split p).2) with
    | error e =>
      rw [hdel] at h
      exact absurd h (by simp)
    | ok st2 =>
      rw [hdel] at h
      have h3 : (⟨st2, none⟩ : Store × Option StorageError) = (st', none) := h
      have h4 : st2 = st' := congrArg Prod.fst h3
      subst h4
      exact ⟨hc, rfl⟩
  · rw [if_neg hc] at h
    exact absurd h (by simp)

theorem txGet_entry (c : encryptorA) (st : Store) (p ct : Bytes)
    (hchain : chainOkL st.buckets [] (splitSlash (split p).1) = true)
    (hge : getEntry st (splitSlash (split p).1) (encKey c (split p).2) = some ct) :
    txGet c st p
      = match decryptKV c ct with
        | .error e => .error ⟨"get", (split p).1, .crypto e⟩
        | .ok r => .ok (some r.2) := by
  rw [txGet_def, if_pos hchain, hge]

/-- **C1.** For every path and value, a successful `Set(P, V)` followed by
`Get(P)` — in the same transaction, or through the database façade whose
one-shot write transaction commits exactly the `txSet` state — returns
exactly `V` with no error.  (The success hypothesis holds, for instance, on
any store whose buckets do not collide with the 32-byte leaf digests, such
as a fresh database; `(split p).2` is the leaf segment, whose length is
below `2^32` for every real Go string.) -/
theorem c1_set_get_roundtrip (c : encryptorA) (law : c.ae.Lawful)
    (st st' : Store) (p v nonce : Bytes)
    (hn : nonce.length = c.ae.nonceSize)
    (hk : (split p).2.length < 2 ^ 32)
    (h : txSet c st p v nonce = (st', none)) :
    txGet c st' p = .ok (some v) ∧
      dbSet c st p v nonce = (st', none) ∧
      (dbGet c st' p).1 = .ok (some v) := by
  obtain ⟨st1, hmk, hput⟩ := txSet_ok h
  have hdest := putE_ok_dest hput
  have hchain1 : chainOkL st1.buckets [] (splitSlash (split p).1) = true :=
    createChainP_chainOk (splitSlash (split p).1) st [] st1 hmk
  have hchain : chainOkL st'.buckets [] (splitSlash (split p).1) = true := by
    rw [hdest]
    exact hchain1
  have hge : getEntry st' (splitSlash (split p).1) (encKey c (split p).2)
      = some (encryptKV c nonce (split p).2 v) := by
    rw [hdest]
    exact findVal_upsert_self st1.entries (splitSlash (split p).1)
      (encKey c (split p).2) (encryptKV c nonce (split p).2 v)
  have hfirst : txGet c st' p = .ok (some v) := by
    rw [txGet_entry c st' p (encryptKV c nonce (split p).2 v) hchain hge,
      decryptKV_encryptKV c law nonce (split p).2 v hn hk]
  exact ⟨hfirst, h, hfirst⟩

/-- Witness for C1 at the path `"a/b/001"` with a 3-byte value on a fresh
database. -/
theorem c1_set_get_roundtrip_witness :
    txGet mockEncA
      (txSet mockEncA store0 [97, 47, 98, 47, 48, 48, 49] [10, 20, 30]
        (List.replicate 12 7)).1
      [97, 47, 98, 47, 48, 48, 49] = .ok (some [10, 20, 30]) :=
  (c1_set_get_roundtrip mockEncA mockAEAD_lawful store0 _
    [97, 47, 98, 47, 48, 48, 49] [10, 20, 30] (List.replicate 12 7)
    (by rfl) (by decide) (by rfl)).1

/-- **C10.** After a successful `Del(P)`, `Get(P)` finds every bucket on
the path but not the leaf key and returns `(nil, nil)` — no value, no
error; whereas a path whose intermediate bucket chain is incomplete gets a
distinct bucket-not-found `StorageError`. -/
theorem c10_absent_leaf_vs_missing_bucket (c : encryptorA)
    (st st' st2 : Store) (p q : Bytes)
    (hdel : txDel c st p = (st', none))
    (hmiss : chainOkL st2.buckets [] (splitSlash (split q).1) = false) :
    txGet c st' p = .ok none ∧
      txGet c st2 q = .error ⟨"get", (split q).1, .notFound q⟩ := by
  obtain ⟨hchain, hdelE⟩ := txDel_ok hdel
  have hdest := delE_ok_dest hdelE
  constructor
  · have hchain' : chainOkL st'.buckets [] (splitSlash (split p).1) = true := by
      rw [hdest]
      exact hchain
    have hge : getEntry st' (splitSlash (split p).1) (encKey c (split p).2)
        = none := by
      rw [hdest]
      exact findVal_removeEntry_self st.entries (splitSlash (split p).1)
        (encKey c (split p).2)
    rw [txGet_def, if_pos hchain', hge]
  · rw [txGet_def, if_neg]
    simp [hmiss]

/-- Witness for C10: set `"a/b/001"`, delete it, get it back (no value, no
error); and get `"a/b/001"` on an empty database (bucket-not-found). -/
theorem c10_absent_leaf_vs_missing_bucket_witness :
    txGet mockEncA
      (txDel mockEncA
        (txSet mockEncA store0 [97, 47, 98, 47, 48, 48, 49] [10, 20]
          (List.replicate 12 7)).1
        [97, 47, 98, 47, 48, 48, 49]).1
      [97, 47, 98, 47, 48, 48, 49] = .ok none ∧
    txGet mockEncA store0 [97, 47, 98, 47, 48, 48, 49]
      = .error ⟨"get", (split [97, 47, 98, 47, 48, 48, 49]).1,
          .notFound [97, 47, 98, 47, 48, 48, 49]⟩ :=
  c10_absent_leaf_vs_missing_bucket mockEncA
    (txSet mockEncA store0 [97, 47, 98, 47, 48, 48, 49] [10, 20]
      (List.replicate 12 7)).1
    (txDel mockEncA
      (txSet mockEncA store0 [97, 47, 98, 47, 48, 48, 49] [10, 20]
        (List.replicate 12 7)).1
      [97, 47, 98, 47, 48, 48, 49]).1
    store0
    [97, 47, 98, 47, 48, 48, 49] [97, 47, 98, 47, 48, 48, 49]
    (by rfl) (by rfl)

/-- **C5.** The value envelope is `nonce ‖ Seal(nonce, be32(len k) ‖ k ‖ v)`
and, under the AEAD contract, `decryptKV` is its exact inverse on every
`(path, value)` pair with a path shorter than `2^32` bytes. -/
theorem c5_envelope_layout_roundtrip (c : encryptorA) (law : c.ae.Lawful)
    (nonce k v : Bytes) (hn : nonce.length = c.ae.nonceSize)
    (hk : k.length < 2 ^ 32) :
    encryptKV c nonce k v
        = nonce ++ c.ae.sealE nonce (enc32 k.length ++ k ++ v) ∧
      decryptKV c (encryptKV c nonce k v) = .ok (k, v) :=
  ⟨rfl, decryptKV_encryptKV c law nonce k v hn hk⟩

/-- Witness for C5 at the path `"k"` and value `[1, 2]`. -/
theorem c5_envelope_layout_roundtrip_witness :
    encryptKV mockEncA (List.replicate 12 3) [107] [1, 2]
        = List.replicate 12 3
          ++ mockEncA.ae.sealE (List.replicate 12 3)
            (enc32 (List.length [107]) ++ [107] ++ [1, 2]) ∧
      decryptKV mockEncA (encryptKV mockEncA (List.replicate 12 3) [107] [1, 2])
        = .ok ([107], [1, 2]) :=
  c5_envelope_layout_roundtrip mockEncA mockAEAD_lawful
    (List.replicate 12 3) [107] [1, 2] (by rfl) (by decide)

/-- **C8.** A stored blob shorter than `NonceSize + Overhead + 4` (32 bytes
for AES-256-GCM's 12-byte nonce and 16-byte tag) is rejected by `decryptKV`
— in both cipher versions — with the distinct too-short error, carrying no
path and no value, before any authentication is attempted. -/
theorem c8_too_short_error (cA : encryptorA) (cB : encryptorB) (ct ct' : Bytes)
    (hA : ct.length < cA.ae.nonceSize + cA.ae.overhead + 4)
    (hB : ct'.length < cB.val.nonceSize + cB.val.overhead + 4) :
    decryptKV cA ct = .error (.tooShort ct.length) ∧
      decryptKVB cB ct' = .error (.tooShort ct'.length) := by
  constructor
  · simp only [decryptKV]
    rw [if_pos hA]
  · simp only [decryptKVB]
    rw [if_pos hB]

/-- Witness for C8: a 31-byte blob (below the 32-byte minimum framing of
AES-256-GCM envelopes) is rejected as too short by both versions. -/
theorem c8_too_short_error_witness :
    decryptKV mockEncA (List.replicate 31 5)
        = .error (.tooShort (List.replicate 31 5).length) ∧
      decryptKVB mockEncB (List.replicate 31 5)
        = .error (.tooShort (List.replicate 31 5).length) :=
  c8_too_short_error mockEncA mockEncB (List.replicate 31 5)
    (List.replicate 31 5) (by decide) (by decide)

/-- **C9.** A single-segment path (non-empty, no `/`) is rooted under the
reserved synthetic `".root"` bucket with the segment itself as the leaf
name — in the current `split` and in the older `splitLeaf`. -/
theorem c9_single_segment_rooted (s : Bytes) (hne : s ≠ [])
    (h : ∀ c ∈ s, c ≠ 47) :
    split s = (rootLabel, s) ∧ splitLeaf s = [rootLabel, s] := by
  constructor
  · simp only [split]
    rw [goDir_no_sep s h, goBase_no_sep s hne h, if_pos rfl]
  · rw [splitLeaf, splitSlash_no_sep s h]

/-- Witness for C9 at the single-segment path `"x"`. -/
theorem c9_single_segment_rooted_witness :
    split [120] = (rootLabel, [120]) ∧ splitLeaf [120] = [rootLabel, [120]] :=
  c9_single_segment_rooted [120] (by decide) (by decide)

/-- **C7.** The read operations are descend-only: if any intermediate
bucket of the addressed chain is missing, `Get`, `All`, `AllKeys` and `Dir`
return the bucket-not-found error at once; and the façade read operations
hand back the database state unchanged — they only roll back their
read-only snapshot, never creating buckets. -/
theorem c7_reads_never_create (c : encryptorA) (st : Store) (p q : Bytes)
    (hp : chainOkL st.buckets [] (splitSlash (split p).1) = false)
    (hq : chainOkL st.buckets [] (splitSlash q) = false) :
    txGet c st p = .error ⟨"get", (split p).1, .notFound p⟩ ∧
      txAll c st q = .error ⟨"all", q, .notFound []⟩ ∧
      txAllKeys c st q = .error ⟨"all", q, .notFound []⟩ ∧
      txDir c st q = .error ⟨"all", q, .notFound []⟩ ∧
      (dbGet c st p).2 = st ∧ (dbAll c st q).2 = st ∧
      (dbAllKeys c st q).2 = st ∧ (dbDir c st q).2 = st := by
  refine ⟨?_, ?_, ?_, ?_, rfl, rfl, rfl, rfl⟩
  · rw [txGet_def, if_neg]
    simp [hp]
  · rw [txAll, if_neg]
    simp [hq]
  · rw [txAllKeys, if_neg]
    simp [hq]
  · rw [txDir, if_neg]
    simp [hq]

/-- Witness for C7 on the empty database with path `"a/b/x"` and bucket
path `"a/b"`. -/
theorem c7_reads_never_create_witness :
    txGet mockEncA store0 [97, 47, 98, 47, 120]
        = .error ⟨"get", (split [97, 47, 98, 47, 120]).1,
            .notFound [97, 47, 98, 47, 120]⟩ ∧
      txAll mockEncA store0 [97, 47, 98] = .error ⟨"all", [97, 47, 98], .notFound []⟩ ∧
      txAllKeys mockEncA store0 [97, 47, 98]
        = .error ⟨"all", [97, 47, 98], .notFound []⟩ ∧
      txDir mockEncA store0 [97, 47, 98] = .error ⟨"all", [97, 47, 98], .notFound []⟩ ∧
      (dbGet mockEncA store0 [97, 47, 98, 47, 120]).2 = store0 ∧
      (dbAll mockEncA store0 [97, 47, 98]).2 = store0 ∧
      (dbAllKeys mockEncA store0 [97, 47, 98]).2 = store0 ∧
      (dbDir mockEncA store0 [97, 47, 98]).2 = store0 :=
  c7_reads_never_create mockEncA store0 [97, 47, 98, 47, 120] [97, 47, 98]
    (by rfl) (by rfl)

/-- **C6.** The segment/leaf ciphers are deterministic: `encKey` is a pure
function of the encryptor context and the segment (a keyed digest), and
`encSegment` always seals under the context's fixed derived nonce, so two
calls on the same segment under the same context are byte-equal.
Consequently a second `Set` of the same path lands in the same bucket and
the same external key slot: it adds no bucket and no entry. -/
theorem c6_segment_determinism (cA : encryptorA) (cB : encryptorB)
    (st st1 st2 : Store) (p v1 v2 n1 n2 : Bytes)
    (h1 : txSet cA st p v1 n1 = (st1, none))
    (h2 : txSet cA st1 p v2 n2 = (st2, none)) :
    (∀ s, encKey cA s = cA.sha3_256 (cA.hkey ++ s)) ∧
      (∀ s, encSegment cB s = cB.key.sealE cB.nonce s) ∧
      st2.buckets = st1.buckets ∧
      st2.entries.length = st1.entries.length := by
  obtain ⟨sa, hmk1, hput1⟩ := txSet_ok h1
  obtain ⟨sb, hmk2, hput2⟩ := txSet_ok h2
  have hdest1 := putE_ok_dest hput1
  have hdest2 := putE_ok_dest hput2
  have hchain1 : chainOkL st1.buckets [] (splitSlash (split p).1) = true := by
    rw [hdest1]
    exact createChainP_chainOk (splitSlash (split p).1) st [] sa hmk1
  have hne : ∀ nm ∈ splitSlash (split p).1, nm ≠ [] :=
    createChainP_nonempty (splitSlash (split p).1) st [] sa hmk1
  have hnoop : mkbucketP st1 (split p).1 = (st1, none) :=
    chainOk_createChainP (splitSlash (split p).1) st1 [] hchain1 hne
  have hsb : sb = st1 := by
    have h5 := hnoop.symm.trans hmk2
    exact (congrArg Prod.fst h5).symm
  rw [hsb] at hdest2
  have hfind : findVal st1.entries (splitSlash (split p).1)
      (encKey cA (split p).2) = some (encryptKV cA n1 (split p).2 v1) := by
    rw [hdest1]
    exact findVal_upsert_self sa.entries (splitSlash (split p).1)
      (encKey cA (split p).2) (encryptKV cA n1 (split p).2 v1)
  refine ⟨fun s => rfl, fun s => rfl, ?_, ?_⟩
  · rw [hdest2]
  · rw [hdest2]
    exact upsert_length_of_mem st1.entries (splitSlash (split p).1)
      (encKey cA (split p).2) (encryptKV cA n2 (split p).2 v2)
      (encryptKV cA n1 (split p).2 v1) hfind

/-- Witness for C6: writing `"a/b/001"` twice with different values and
different value nonces. -/
theorem c6_segment_determinism_witness :
    (∀ s, encKey mockEncA s = mockEncA.sha3_256 (mockEncA.hkey ++ s)) ∧
      (∀ s, encSegment mockEncB s = mockEncB.key.sealE mockEncB.nonce s) ∧
      (txSet mockEncA
        (txSet mockEncA store0 [97, 47, 98, 47, 48, 48, 49] [10]
          (List.replicate 12 7)).1
        [97, 47, 98, 47, 48, 48, 49] [20] (List.replicate 12 9)).1.buckets
        = (txSet mockEncA store0 [97, 47, 98, 47, 48, 48, 49] [10]
            (List.replicate 12 7)).1.buckets ∧
      (txSet mockEncA
        (txSet mockEncA store0 [97, 47, 98, 47, 48, 48, 49] [10]
          (List.replicate 12 7)).1
        [97, 47, 98, 47, 48, 48, 49] [20] (List.replicate 12 9)).1.entries.length
        = (txSet mockEncA store0 [97, 47, 98, 47, 48, 48, 49] [10]
            (List.replicate 12 7)).1.entries.length :=
  c6_segment_determinism mockEncA mockEncB store0
    (txSet mockEncA store0 [97, 47, 98, 47, 48, 48, 49] [10]
      (List.replicate 12 7)).1
    (txSet mockEncA
      (txSet mockEncA store0 [97, 47, 98, 47, 48, 48, 49] [10]
        (List.replicate 12 7)).1
      [97, 47, 98, 47, 48, 48, 49] [20] (List.replicate 12 9)).1
    [97, 47, 98, 47, 48, 48, 49] [10] [20]
    (List.replicate 12 7) (List.replicate 12 9)
    (by rfl) (by rfl)

/-- The loop of `xact.DelMany`: split each path, descend-only to its
bucket (error the moment a chain is incomplete) and `Delete` the obfuscated
leaf key, stopping at the first error with the state reached so far. -/
def delManyGo (c : encryptorA) : Store → List Bytes → Store × Option StorageError
  | st, [] => (st, none)
  | st, p :: rest =>
    let dn := (split p).1
    let nm := (split p).2
    if chainOkL st.buckets [] (splitSlash dn) then
      match delE st (splitSlash dn) (encKey c nm) with
      | .error e => (st, some ⟨"del", p, .bolt e⟩)
      | .ok st' => delManyGo c st' rest
    else (st, some ⟨"del", dn, .notFound p⟩)

/-- `xact.DelMany`. -/
def txDelMany (c : encryptorA) (st : Store) (v : List Bytes) :
    Store × Option StorageError :=
  delManyGo c st v

/-- `bdb.DelMany` (deferred commit, like `bdb.Set`). -/
def dbDelMany (c : encryptorA) (db : Store) (v : List Bytes) :
    Store × Option StorageError :=
  txDelMany c db v

/-! ## C3: what reaches the external store -/

/-- Every entry of the store carries a digest key and an envelope value:
its key name is an output of the leaf cipher `encKey`, and its value an
output of the value-envelope cipher `encryptKV` (nonce ‖ sealed blob). -/
def goodEntries (c : encryptorA) (st : Store) : Prop :=
  ∀ e ∈ st.entries,
    (∃ s, e.2.1 = encKey c s) ∧ (∃ nonce s w, e.2.2 = encryptKV c nonce s w)

/-- **C3, counterexample.** Setting `"a/b"` on a fresh database stores the
top-level bucket under the literal plaintext name `"a"`, which is not an
output of the segment cipher (`encKey` outputs are 32-byte digests): the
claim that no plaintext path segment ever reaches the external store as a
bucket name is false for this version. -/
theorem c3_plaintext_bucket_counterexample :
    (txSet mockEncA store0 [97, 47, 98] [1] (List.replicate 12 0)).2 = none ∧
      (txSet mockEncA store0 [97, 47, 98] [1]
        (List.replicate 12 0)).1.buckets = [[[97]]] ∧
      (∀ s : Bytes, encKey mockEncA s ≠ [97]) := by
  refine ⟨rfl, rfl, fun s h => ?_⟩
  have hl := congrArg List.length h
  rw [mockEncA_encKey_length] at hl
  simp at hl

/-- The entries after `txSet`: unchanged (on any error path) or upserted
with the digest leaf key. -/
theorem txSet_fst_entries (c : encryptorA) (st : Store) (p v nonce : Bytes) :
    (txSet c st p v nonce).1.entries = st.entries ∨
      (txSet c st p v nonce).1.entries
        = upsert st.entries (splitSlash (split p).1) (encKey c (split p).2)
            (encryptKV c nonce (split p).2 v) := by
  rw [txSet_def]
  cases hmk : mkbucketP st (split p).1 with
  | mk st1 e? =>
    have hent : st1.entries = st.entries := by
      have h5 : (mkbucketP st (split p).1).1.entries = st.entries :=
        createChainP_entries (splitSlash (split p).1) st []
      rw [hmk] at h5
      exact h5
    cases e? with
    | some e => exact .inl hent
    | none =>
      have hred : ((match (st1, (none : Option BoltErr)) with
          | (st1, some e) => (st1, some (⟨"set", p, .bolt e⟩ : StorageError))
          | (st1, none) =>
            match putE st1 (splitSlash (split p).1) (encKey c (split p).2)
              (encryptKV c nonce (split p).2 v) with
            | .error e => (st1, some (⟨"set", p, .bolt e⟩ : StorageError))
            | .ok st2 => (st2, none)) : Store × Option StorageError)
          = match putE st1 (splitSlash (split p).1) (encKey c (split p).2)
              (encryptKV c nonce (split p).2 v) with
            | .error e => (st1, some (⟨"set", p, .bolt e⟩ : StorageError))
            | .ok st2 => (st2, none) := rfl
      rw [hred]
      cases hput : putE st1 (splitSlash (split p).1) (encKey c (split p).2)
          (encryptKV c nonce (split p).2 v) with
      | error e => exact .inl hent
      | ok st2 =>
        have hdest := putE_ok_dest hput
        refine .inr ?_
        show st2.entries = _
        rw [hdest, hent]

/-- The entries after `txDel`: unchanged (on any error path) or with the
entry at the digest leaf key removed. -/
theorem txDel_fst_entries (c : encryptorA) (st : Store) (q : Bytes) :
    (txDel c st q).1.entries = st.entries ∨
      (txDel c st q).1.entries
        = removeEntry st.entries (splitSlash (split q).1) (encKey c (split q).2) := by
  rw [txDel_def]
  by_cases hc : chainOkL st.buckets [] (splitSlash (split q).1) = true
  · rw [if_pos hc]
    cases hdel : delE st (splitSlash (split q).1) (encKey c (split q).2) with
    | error e => exact .inl rfl
    | ok st2 =>
      have hdest := delE_ok_dest hdel
      refine .inr ?_
      show st2.entries = _
      rw [hdest]
  · rw [if_neg hc]
    exact .inl rfl

theorem goodEntries_txSet (c : encryptorA) (st : Store) (p v nonce : Bytes)
    (h : goodEntries c st) : goodEntries c (txSet c st p v nonce).1 := by
  rcases txSet_fst_entries c st p v nonce with hl | hr
  · exact fun e he => h e (hl ▸ he)
  · intro e he
    rcases mem_upsert (hr ▸ he) with hold | hnew
    · exact h e hold
    · exact ⟨⟨(split p).2, by rw [hnew]⟩,
        ⟨nonce, (split p).2, v, by rw [hnew]⟩⟩

theorem setManyGo_cons (c : encryptorA) (st : Store) (key val : Bytes)
    (rest : List (Bytes × Bytes)) (nonces : List Bytes) :
    setManyGo c st ((key, val) :: rest) nonces
      = match mkbucketP st (split key).1 with
        | (st1, some e) => (st1, some ⟨"set-many", key, .bolt e⟩)
        | (st1, none) =>
          match putE st1 (splitSlash (split key).1) (encKey c (split key).2)
              (encryptKV c (nonces.headD []) (split key).2 val) with
          | .error e => (st1, some ⟨"set-many", key, .bolt e⟩)
          | .ok st2 => setManyGo c st2 rest (nonces.drop 1) := rfl

theorem goodEntries_setManyGo (c : encryptorA) (kv : List (Bytes × Bytes)) :
    ∀ st nonces, goodEntries c st →
      goodEntries c (setManyGo c st kv nonces).1 := by
  induction kv with
  | nil => intro st nonces h; exact h
  | cons x rest ih =>
    intro st nonces h
    obtain ⟨key, val⟩ := x
    rw [setManyGo_cons]
    cases hmk : mkbucketP st (split key).1 with
    | mk st1 e? =>
      have hent : st1.entries = st.entries := by
        have h5 : (mkbucketP st (split key).1).1.entries = st.entries :=
          createChainP_entries (splitSlash (split key).1) st []
        rw [hmk] at h5
        exact h5
      cases e? with
      | some e =>
        show goodEntries c st1
        exact fun e he => h e (hent ▸ he)
      | none =>
        show goodEntries c ((match putE st1 (splitSlash (split key).1)
            (encKey c (split key).2)
            (encryptKV c (nonces.headD []) (split key).2 val) with
          | .error e => (st1, some (⟨"set-many", key, .bolt e⟩ : StorageError))
          | .ok st2 => setManyGo c st2 rest (nonces.drop 1)) :
            Store × Option StorageError).1
        cases hput : putE st1 (splitSlash (split key).1) (encKey c (split key).2)
            (encryptKV c (nonces.headD []) (split key).2 val) with
        | error e =>
          show goodEntries c st1
          exact fun e he => h e (hent ▸ he)
        | ok st2 =>
          show goodEntries c (setManyGo c st2 rest (nonces.drop 1)).1
          refine ih st2 (nonces.drop 1) ?_
          have hdest := putE_ok_dest hput
          intro e he
          have he2 : e ∈ upsert st.entries (splitSlash (split key).1)
              (encKey c (split key).2)
              (encryptKV c (nonces.headD []) (split key).2 val) := by
            have h6 : st2.entries = upsert st.entries (splitSlash (split key).1)
                (encKey c (split key).2)
                (encryptKV c (nonces.headD []) (split key).2 val) := by
              rw [hdest, hent]
            exact h6 ▸ he
          rcases mem_upsert he2 with hold | hnew
          · exact h e hold
          · exact ⟨⟨(split key).2, by rw [hnew]⟩,
              ⟨nonces.headD [], (split key).2, val, by rw [hnew]⟩⟩

theorem goodEntries_txSetMany (c : encryptorA) (st : Store)
    (kv : List (Bytes × Bytes)) (nonces : List Bytes)
    (h : goodEntries c st) : goodEntries c (txSetMany c st kv nonces).1 := by
  cases kv with
  | nil => exact h
  | cons x rest =>
    cases rest with
    | nil => exact goodEntries_txSet c st x.1 x.2 (nonces.headD []) h
    | cons y rest2 => exact goodEntries_setManyGo c (x :: y :: rest2) st nonces h

theorem goodEntries_txDel (c : encryptorA) (st : Store) (q : Bytes)
    (h : goodEntries c st) : goodEntries c (txDel c st q).1 := by
  rcases txDel_fst_entries c st q with hl | hr
  · exact fun e he => h e (hl ▸ he)
  · exact fun e he => h e (mem_removeEntry (hr ▸ he))

theorem delManyGo_cons (c : encryptorA) (st : Store) (p : Bytes)
    (rest : List Bytes) :
    delManyGo c st (p :: rest)
      = if chainOkL st.buckets [] (splitSlash (split p).1) then
          match delE st (splitSlash (split p).1) (encKey c (split p).2) with
          | .error e => (st, some ⟨"del", p, .bolt e⟩)
          | .ok st' => delManyGo c st' rest
        else (st, some ⟨"del", (split p).1, .notFound p⟩) := rfl

theorem goodEntries_delManyGo (c : encryptorA) (ps : List Bytes) :
    ∀ st, goodEntries c st → goodEntries c (delManyGo c st ps).1 := by
  induction ps with
  | nil => intro st h; exact h
  | cons p rest ih =>
    intro st h
    rw [delManyGo_cons]
    by_cases hc : chainOkL st.buckets [] (splitSlash (split p).1) = true
    · rw [if_pos hc]
      cases hdel : delE st (splitSlash (split p).1) (encKey c (split p).2) with
      | error e =>
        show goodEntries c st
        exact h
      | ok st2 =>
        show goodEntries c (delManyGo c st2 rest).1
        refine ih st2 ?_
        have hdest := delE_ok_dest hdel
        intro e he
        have he2 : e ∈ removeEntry st.entries (splitSlash (split p).1)
            (encKey c (split p).2) := by
          have h6 : st2.entries = removeEntry st.entries (splitSlash (split p).1)
              (encKey c (split p).2) := by
            rw [hdest]
          exact h6 ▸ he
        exact h e (mem_removeEntry he2)
    · rw [if_neg hc]
      exact h

theorem goodEntries_txDelMany (c : encryptorA) (st : Store) (ps : List Bytes)
    (h : goodEntries c st) : goodEntries c (txDelMany c st ps).1 :=
  goodEntries_delManyGo c ps st h

/-- The database states reachable from the empty store through the write
operations of the layer — `Set`, `SetMany`, `Del`, `DelMany`, with
arbitrary arguments.  The façade operations are definitionally the same
state transformers (`dbSet = txSet`, …), so every façade-reachable state is
`Reach`-able. -/
inductive Reach (c : encryptorA) : Store → Prop where
  | init : Reach c store0
  | set (st : Store) (p v nonce : Bytes) :
      Reach c st → Reach c (txSet c st p v nonce).1
  | setMany (st : Store) (kv : List (Bytes × Bytes)) (nonces : List Bytes) :
      Reach c st → Reach c (txSetMany c st kv nonces).1
  | del (st : Store) (p : Bytes) : Reach c st → Reach c (txDel c st p).1
  | delMany (st : Store) (ps : List Bytes) :
      Reach c st → Reach c (txDelMany c st ps).1

/-- **C3, amended.** After every sequence of operations from the empty
database, every key name stored in the external store is an output of the
segment/leaf cipher `encKey`, and every stored value is an output of the
value-envelope cipher `encryptKV` (nonce ‖ sealed blob) — but bucket names
are the literal plaintext dir segments, not cipher outputs (see the
counterexample). -/
theorem c3_amended_store_layout (c : encryptorA) (st : Store)
    (h : Reach c st) : goodEntries c st := by
  induction h with
  | init => intro e he; exact absurd he (by simp [store0])
  | set st p v nonce _ ih => exact goodEntries_txSet c st p v nonce ih
  | setMany st kv nonces _ ih => exact goodEntries_txSetMany c st kv nonces ih
  | del st p _ ih => exact goodEntries_txDel c st p ih
  | delMany st ps _ ih => exact goodEntries_txDelMany c st ps ih

/-- Witness for the amended C3: a two-pair `SetMany` batch followed by a
`Del`, starting from the empty database. -/
theorem c3_amended_store_layout_witness :
    goodEntries mockEncA
      (txDel mockEncA
        (txSetMany mockEncA store0 [([97, 47, 98], [1]), ([97, 47, 99], [2])]
          [List.replicate 12 0, List.replicate 12 1]).1
        [97, 47, 98]).1 :=
  c3_amended_store_layout mockEncA _
    (Reach.del _ [97, 47, 98]
      (Reach.setMany store0 [([97, 47, 98], [1]), ([97, 47, 99], [2])]
        [List.replicate 12 0, List.replicate 12 1] Reach.init))

/-- **C4.** The code stores only the *leaf segment* inside the value
envelope (`encryptKV(nm, v)` with `nm` the `filepath.Base` of the path), so
`All("a/b")` keys its result by `"001"`, not by the full original path
`"a/b/001"` that the claim (and the code's own doc comments and tests)
promise. -/
theorem c4_all_keys_are_leaf_only :
    (txSet mockEncA store0 [97, 47, 98, 47, 48, 48, 49] [10, 20]
        (List.replicate 12 7)).2 = none ∧
      txAll mockEncA
        (txSet mockEncA store0 [97, 47, 98, 47, 48, 48, 49] [10, 20]
          (List.replicate 12 7)).1
        [97, 47, 98] = .ok [([48, 48, 49], [10, 20])] ∧
      ([48, 48, 49] : Bytes) ≠ [97, 47, 98, 47, 48, 48, 49] :=
  ⟨rfl, rfl, by decide⟩

/-! ## C2: the façade's deferred commit on a failed batch -/

/-- A database holding the bucket `"a/<D>"` where `<D>` is the 32-byte leaf
digest of the segment `"xx"` (bytes `2` repeated), created by one ordinary
`Set("a/<D>/z", [5])`. -/
def c2db : Store :=
  (dbSet mockEncA store0 ([97, 47] ++ List.replicate 32 2 ++ [47, 122]) [5]
    (List.replicate 12 1)).1

/-- The batch `[("a/q", [6]), ("a/xx", [7])]`: the second element's `Put`
collides with the pre-existing bucket named by its leaf digest and fails
with `ErrIncompatibleValue`. -/
def c2batch : List (Bytes × Bytes) :=
  [([97, 47, 113], [6]), ([97, 47, 120, 120], [7])]

def c2nonces : List Bytes := [List.replicate 12 2, List.replicate 12 3]

/-- **C2.** A façade-level `SetMany` over two pairs that fails on the
second pair still commits the first pair: `defer tx.Commit()` runs on the
error path too, so the stored key-value space after the failed call is not
what it was before — `"a/q"` is absent before, present (with its new value)
after.  This contradicts the claim that a mid-batch failure leaves none of
the batch's changes committed. -/
theorem c2_setmany_partial_commit :
    (dbSetMany mockEncA c2db c2batch c2nonces).2
        = some ⟨"set-many", [97, 47, 120, 120], .bolt .incompatibleValue⟩ ∧
      (dbGet mockEncA c2db [97, 47, 113]).1 = .ok none ∧
      (dbGet mockEncA (dbSetMany mockEncA c2db c2batch c2nonces).1
        [97, 47, 113]).1 = .ok (some [6]) :=
  ⟨rfl, rfl, rfl⟩
